import Mathlib

/-!
# Verification of `dcs_wrapper.py` (avinashvarna/dcs_experiments)

A shallow embedding of the single-file batch script that reads a JSON corpus
of annotated Sanskrit sentences (`dcs_sentences.json`), filters the documents
whose `_id` starts with `"sentence_"`, extracts the morphological `root`
tokens from the nested `dcsAnalysisDecomposition` field, transliterates the
accumulated root string from IAST to SLP1, and writes one line per processed
document to `sent_roots.txt`.

Python-specific behaviour is modelled explicitly:
* `KeyError` on a missing dictionary key and `NameError` on reading the
  never-assigned accumulator `s` are modelled by the `PyErr` type; the first
  raised error freezes the run (the script has no handlers, so the exception
  propagates and the process aborts, leaving the output written so far).
* The accumulator `s` is assigned inside the loop body only when the current
  document has a `dcsAnalysisDecomposition` field; its value survives into
  later iterations, which the `LoopState.s : Option String` field models
  (`none` = not yet assigned).
* The output file is modelled as the string of everything written so far.
-/

set_option autoImplicit false

namespace DcsWrapper

/-- A token-annotation mapping inside a decomposition group.  In the JSON it
is an object that may or may not contain a `"root"` key; all other keys are
irrelevant to the script. -/
structure TokenMapping where
  root : Option String
deriving DecidableEq

/-- A document of the corpus.  `_id` is `none` when the JSON object lacks the
`"_id"` key (accessing it then raises `KeyError`); likewise for the other
fields.  `dcsId` stores the `str()` rendering of whatever JSON value the
document carried, since the script only ever uses `str(doc["dcsId"])`. -/
structure Doc where
  _id : Option String
  dcsId : Option String
  text : Option String
  dcsAnalysisDecomposition : Option (List (List TokenMapping))
deriving DecidableEq

/-- True when the character list `k` begins `cs`. -/
def matchesAt : List Char → List Char → Bool
  | [], _ => true
  | _ :: _, [] => false
  | k :: ks, c :: cs => k == c && matchesAt ks cs

/-- Python's `s.startswith(p)`. -/
def startswith (s p : String) : Bool :=
  matchesAt p.data s.data

/-- Whether `doc["_id"].startswith("sentence_")` holds; `false` when the
document has no `_id` (the pipeline model raises the `KeyError` itself at the
point of access, see `procOne`). -/
def isSentenceDoc (doc : Doc) : Bool :=
  match doc._id with
  | some i => startswith i "sentence_"
  | none => false

/-- Models `iter_sentences` (lines 23-25 of `dcs_wrapper.py`) as a pure
filter over the loaded document list.  This is the generator's yield sequence
when every document has an `_id`; the `KeyError` raised on a document without
one is modelled inline in `procOne`, at the same point of the iteration. -/
def iter_sentences (docs : List Doc) : List Doc :=
  docs.filter isSentenceDoc

/-- The root accumulation of lines 38-42: `s = ""` followed by
`s += " " + group["root"]` over `for decomp in doc["dcsAnalysisDecomposition"]:
for group in decomp:`, skipping mappings without a `"root"` key. -/
def rootString (dec : List (List TokenMapping)) : String :=
  dec.foldl
    (fun s decomp =>
      decomp.foldl
        (fun s group =>
          match group.root with
          | some r => s ++ " " ++ r
          | none => s)
        s)
    ""

/-- The roots of a decomposition in source order: outer-group order first,
then inner-token order, mappings without a `"root"` key skipped. -/
def extractRoots (dec : List (List TokenMapping)) : List String :=
  (dec.map (fun decomp => decomp.filterMap (fun group => group.root))).flatten

/-- The number of root-bearing token-mappings of a decomposition. -/
def countRoots (dec : List (List TokenMapping)) : Nat :=
  (dec.map (fun decomp => (decomp.filter (fun group => group.root.isSome)).length)).sum

/-! ## The transliterator

The script calls `sanscript.transliterate(s, sanscript.IAST, sanscript.SLP1)`
from the external `indic_transliteration` library, which is not part of this
repository.  Modelled from the spec: the transliterator is a deterministic
pure function of (string, source scheme, target scheme) driven by a fixed
character/cluster mapping table; each recognized character/cluster sequence
of the input is mapped to the target scheme's equivalent and unrecognized
sequences are passed through unchanged. -/

/-- Modelled from the spec: the cluster matcher of the transliterator — the
first table entry whose (nonempty) key begins the remaining input.  Tables
list longer clusters before their one-character prefixes, so the first match
is the longest one. -/
def findMatch (tbl : List (List Char × List Char)) (cs : List Char) :
    Option (List Char × List Char) :=
  tbl.find? (fun p => !p.1.isEmpty && matchesAt p.1 cs)

/-- Modelled from the spec: one transliteration pass over a character list.
`fuel` only serves to make the recursion structural; every call site passes
`fuel ≥ cs.length`, which is always enough because each step consumes at
least one character. -/
def translitGo (tbl : List (List Char × List Char)) (fuel : Nat) (cs : List Char) : List Char :=
  match cs, fuel with
  | [], _ => []
  | c :: rest, 0 => c :: rest
  | c :: rest, fuel + 1 =>
    match findMatch tbl (c :: rest) with
    | some (k, v) => v ++ translitGo tbl fuel (rest.drop (k.length - 1))
    | none => c :: translitGo tbl fuel rest

/-- Transliteration of a character list. -/
def translitChars (tbl : List (List Char × List Char)) (cs : List Char) : List Char :=
  translitGo tbl cs.length cs

/-- The greedy cluster decomposition the transliterator induces on its input:
matched keys as they are consumed, unmatched characters as singletons. -/
def tokenGo (tbl : List (List Char × List Char)) (fuel : Nat) (cs : List Char) :
    List (List Char) :=
  match cs, fuel with
  | [], _ => []
  | c :: rest, 0 => [c :: rest]
  | c :: rest, fuel + 1 =>
    match findMatch tbl (c :: rest) with
    | some (k, _) => k :: tokenGo tbl fuel (rest.drop (k.length - 1))
    | none => [c] :: tokenGo tbl fuel rest

/-- Cluster decomposition of a character list. -/
def tokenizeChars (tbl : List (List Char × List Char)) (cs : List Char) : List (List Char) :=
  tokenGo tbl cs.length cs

/-- A scheme-to-scheme table on strings, turned into character lists. -/
def charTable (tbl : List (String × String)) : List (List Char × List Char) :=
  tbl.map (fun p => (p.1.data, p.2.data))

/-- Modelled from the spec: `sanscript.transliterate` with an explicit
mapping table standing for the (source scheme, target scheme) pair. -/
def transliterate (tbl : List (String × String)) (s : String) : String :=
  ⟨translitChars (charTable tbl) s.data⟩

/-- Modelled from the spec: the fixed IAST → SLP1 character/cluster table
(two-character clusters listed before their one-character prefixes; every
SLP1 value is a single character). -/
def iastToSlp1Table : List (String × String) :=
  [("ai", "E"), ("au", "O"),
   ("kh", "K"), ("gh", "G"), ("ch", "C"), ("jh", "J"),
   ("ṭh", "W"), ("ḍh", "Q"), ("th", "T"), ("dh", "D"),
   ("ph", "P"), ("bh", "B"),
   ("a", "a"), ("ā", "A"), ("i", "i"), ("ī", "I"), ("u", "u"), ("ū", "U"),
   ("ṛ", "f"), ("ṝ", "F"), ("ḷ", "x"), ("ḹ", "X"), ("e", "e"), ("o", "o"),
   ("ṃ", "M"), ("ḥ", "H"),
   ("k", "k"), ("g", "g"), ("ṅ", "N"),
   ("c", "c"), ("j", "j"), ("ñ", "Y"),
   ("ṭ", "w"), ("ḍ", "q"), ("ṇ", "R"),
   ("t", "t"), ("d", "d"), ("n", "n"),
   ("p", "p"), ("b", "b"), ("m", "m"),
   ("y", "y"), ("r", "r"), ("l", "l"), ("v", "v"),
   ("ś", "S"), ("ṣ", "z"), ("s", "s"), ("h", "h")]

/-- Modelled from the spec: the SLP1 → IAST table, the reverse direction of
the same fixed mapping. -/
def slp1ToIastTable : List (String × String) :=
  iastToSlp1Table.map (fun p => (p.2, p.1))

/-! ## The main loop -/

/-- The unhandled Python exceptions the script can raise per document. -/
inductive PyErr where
  | keyError (field : String)
  | nameError (var : String)
deriving DecidableEq

/-- The state carried across iterations of the main loop: everything written
to `sent_roots.txt` so far, the accumulator variable `s` (`none` = never
assigned), and the pending unhandled exception, if any. -/
structure LoopState where
  out : String
  s : Option String
  err : Option PyErr
deriving DecidableEq

/-- State at loop entry: empty output file, `s` unassigned, no error. -/
def initState : LoopState := ⟨"", none, none⟩

/-- One iteration of the main loop (lines 34-44) on one input document, fused
with the `doc["_id"].startswith("sentence_")` filter of the `iter_sentences`
generator the loop consumes.  Write order follows the source: for a document
with a decomposition, `str(doc["dcsId"]) + ", "`, then `doc["text"] + ", "`,
then the accumulation into `s`, and in all cases finally
`transliterate(s) + "\n"` — which reads the stale `s` when the decomposition
field is absent, and raises `NameError` if `s` was never assigned.  A raised
error freezes the state for all later documents. -/
def procOne (st : LoopState) (doc : Doc) : LoopState :=
  match st.err with
  | some _ => st
  | none =>
    match doc._id with
    | none => ⟨st.out, st.s, some (.keyError "_id")⟩
    | some i =>
      if startswith i "sentence_" then
        match doc.dcsAnalysisDecomposition with
        | some dec =>
          match doc.dcsId with
          | none => ⟨st.out, st.s, some (.keyError "dcsId")⟩
          | some n =>
            match doc.text with
            | none => ⟨st.out ++ n ++ ", ", st.s, some (.keyError "text")⟩
            | some t =>
              ⟨st.out ++ n ++ ", " ++ t ++ ", " ++
                 transliterate iastToSlp1Table (rootString dec) ++ "\n",
               some (rootString dec), none⟩
        | none =>
          match st.s with
          | none => ⟨st.out, none, some (.nameError "s")⟩
          | some sv =>
            ⟨st.out ++ transliterate iastToSlp1Table sv ++ "\n", some sv, none⟩
      else st

/-- The whole run of the script on the loaded document list. -/
def runPipeline (docs : List Doc) : LoopState :=
  docs.foldl procOne initState

/-- Number of lines in the output, as the number of newline characters. -/
def countNl (s : String) : Nat :=
  s.data.count '\n'

/-- True when the string contains no newline character. -/
def noNlStr (s : String) : Bool :=
  !s.data.contains '\n'

/-- True when none of the field values of the document that the script can
write (the `str()` of `dcsId`, the `text`, and every `root`) contains a
newline character. -/
def noNlDoc (d : Doc) : Bool :=
  (match d.dcsId with
   | some n => noNlStr n
   | none => true) &&
  (match d.text with
   | some t => noNlStr t
   | none => true) &&
  (match d.dcsAnalysisDecomposition with
   | some dec =>
     dec.all (fun decomp =>
       decomp.all (fun group =>
         match group.root with
         | some r => noNlStr r
         | none => true))
   | none => true)

/-- True when the first document whose `_id` starts with `"sentence_"` (if
any) has a `dcsAnalysisDecomposition` field. -/
def firstSentenceHasDecomp (docs : List Doc) : Bool :=
  match docs with
  | [] => true
  | d :: ds =>
    if isSentenceDoc d then d.dcsAnalysisDecomposition.isSome
    else firstSentenceHasDecomp ds

/-- Loop-state invariant: whatever the accumulator `s` holds is free of
newline characters. -/
def accNoNl (st : LoopState) : Prop :=
  ∀ sv, st.s = some sv → '\n' ∉ sv.data

/-- Loop-state invariant: the run has not raised `NameError` on `s`, and as
long as no error is pending the accumulator has been assigned. -/
def accAssigned (st : LoopState) : Prop :=
  st.err ≠ some (.nameError "s") ∧ (st.err = none → st.s.isSome = true)

/-! ## Concrete documents used as witnesses -/

/-- The single document of end-to-end scenario 1. -/
def scenario1Doc : Doc :=
  ⟨some "sentence_1", some "1", some "rāmaḥ gacchati", some [[⟨some "gam"⟩]]⟩

/-- A sentence document whose only root contains an embedded newline. -/
def newlineRootDoc : Doc :=
  ⟨some "sentence_1", some "1", some "t", some [[⟨some "a\nb"⟩]]⟩

/-- A sentence document with a decomposition, used to seed the accumulator. -/
def seedDoc : Doc :=
  ⟨some "sentence_1", some "7", some "tat", some [[⟨some "tad"⟩]]⟩

/-- A sentence document without a `dcsAnalysisDecomposition` field. -/
def noDecompDoc : Doc :=
  ⟨some "sentence_2", some "8", some "u", none⟩

/-- A non-sentence document. -/
def metaDoc : Doc :=
  ⟨some "meta_1", none, none, none⟩

/-- A document without an `_id` field. -/
def noIdDoc : Doc :=
  ⟨none, some "9", some "x", none⟩

/-! ## Lemmas about the transliterator -/

theorem matchesAt_append_drop :
    ∀ (k cs : List Char), matchesAt k cs = true → k ++ cs.drop k.length = cs := by
  intro k
  induction k with
  | nil => intro cs _; simp
  | cons a ks ih =>
    intro cs h
    cases cs with
    | nil => simp [matchesAt] at h
    | cons c cs' =>
      simp only [matchesAt, Bool.and_eq_true, beq_iff_eq] at h
      obtain ⟨rfl, h2⟩ := h
      simpa using ih cs' h2

theorem matchesAt_refl_append (k t : List Char) : matchesAt k (k ++ t) = true := by
  induction k with
  | nil => simp [matchesAt]
  | cons a ks ih => simp [matchesAt, ih]

theorem findMatch_mem {tbl : List (List Char × List Char)} {cs k v : List Char}
    (h : findMatch tbl cs = some (k, v)) : (k, v) ∈ tbl :=
  List.mem_of_find?_eq_some h

theorem findMatch_spec {tbl : List (List Char × List Char)} {cs k v : List Char}
    (h : findMatch tbl cs = some (k, v)) : k ≠ [] ∧ matchesAt k cs = true := by
  have := List.find?_some h
  simp only [Bool.and_eq_true, Bool.not_eq_true'] at this
  refine ⟨?_, this.2⟩
  intro hk
  rw [hk] at this
  simp at this

theorem findMatch_ne_none {tbl : List (List Char × List Char)} {c : Char} {rest w : List Char}
    (hm : ([c], w) ∈ tbl) : findMatch tbl (c :: rest) ≠ none := by
  intro h
  have := List.find?_eq_none.mp h ([c], w) hm
  simp [matchesAt] at this

theorem translitGo_fuel (tbl : List (List Char × List Char)) :
    ∀ (f₁ f₂ : Nat) (cs : List Char), cs.length ≤ f₁ → cs.length ≤ f₂ →
      translitGo tbl f₁ cs = translitGo tbl f₂ cs := by
  intro f₁
  induction f₁ with
  | zero =>
    intro f₂ cs h₁ _
    have : cs = [] := List.eq_nil_of_length_eq_zero (Nat.le_zero.mp h₁)
    subst this
    simp [translitGo]
  | succ a ih =>
    intro f₂ cs h₁ h₂
    cases cs with
    | nil => simp [translitGo]
    | cons c rest =>
      cases f₂ with
      | zero => simp at h₂
      | succ b =>
        simp only [translitGo]
        cases hfm : findMatch tbl (c :: rest) with
        | some p =>
          obtain ⟨k, v⟩ := p
          have hlen : (rest.drop (k.length - 1)).length ≤ rest.length := by
            simp [List.length_drop]
          simp only [List.length_cons, Nat.succ_le_succ_iff] at h₁ h₂
          dsimp only
          rw [ih b (rest.drop (k.length - 1)) (le_trans hlen h₁) (le_trans hlen h₂)]
        | none =>
          simp only [List.length_cons, Nat.succ_le_succ_iff] at h₁ h₂
          dsimp only
          rw [ih b rest h₁ h₂]

theorem tokenGo_fuel (tbl : List (List Char × List Char)) :
    ∀ (f₁ f₂ : Nat) (cs : List Char), cs.length ≤ f₁ → cs.length ≤ f₂ →
      tokenGo tbl f₁ cs = tokenGo tbl f₂ cs := by
  intro f₁
  induction f₁ with
  | zero =>
    intro f₂ cs h₁ _
    have : cs = [] := List.eq_nil_of_length_eq_zero (Nat.le_zero.mp h₁)
    subst this
    simp [tokenGo]
  | succ a ih =>
    intro f₂ cs h₁ h₂
    cases cs with
    | nil => simp [tokenGo]
    | cons c rest =>
      cases f₂ with
      | zero => simp at h₂
      | succ b =>
        simp only [tokenGo]
        cases hfm : findMatch tbl (c :: rest) with
        | some p =>
          obtain ⟨k, v⟩ := p
          have hlen : (rest.drop (k.length - 1)).length ≤ rest.length := by
            simp [List.length_drop]
          simp only [List.length_cons, Nat.succ_le_succ_iff] at h₁ h₂
          dsimp only
          rw [ih b (rest.drop (k.length - 1)) (le_trans hlen h₁) (le_trans hlen h₂)]
        | none =>
          simp only [List.length_cons, Nat.succ_le_succ_iff] at h₁ h₂
          dsimp only
          rw [ih b rest h₁ h₂]

theorem translitChars_nil (tbl : List (List Char × List Char)) :
    translitChars tbl [] = [] := rfl

theorem translitChars_cons_some {tbl : List (List Char × List Char)}
    {c : Char} {rest k v : List Char} (h : findMatch tbl (c :: rest) = some (k, v)) :
    translitChars tbl (c :: rest) = v ++ translitChars tbl (rest.drop (k.length - 1)) := by
  show translitGo tbl (c :: rest).length (c :: rest) = _
  simp only [List.length_cons, translitGo, h]
  rw [translitGo_fuel tbl rest.length (rest.drop (k.length - 1)).length
    (rest.drop (k.length - 1)) (by simp [List.length_drop]) (le_refl _)]
  rfl

theorem translitChars_cons_none {tbl : List (List Char × List Char)}
    {c : Char} {rest : List Char} (h : findMatch tbl (c :: rest) = none) :
    translitChars tbl (c :: rest) = c :: translitChars tbl rest := by
  show translitGo tbl (c :: rest).length (c :: rest) = _
  simp only [List.length_cons, translitGo, h]
  rfl

theorem tokenizeChars_cons_some {tbl : List (List Char × List Char)}
    {c : Char} {rest k v : List Char} (h : findMatch tbl (c :: rest) = some (k, v)) :
    tokenizeChars tbl (c :: rest) = k :: tokenizeChars tbl (rest.drop (k.length - 1)) := by
  show tokenGo tbl (c :: rest).length (c :: rest) = _
  simp only [List.length_cons, tokenGo, h]
  rw [tokenGo_fuel tbl rest.length (rest.drop (k.length - 1)).length
    (rest.drop (k.length - 1)) (by simp [List.length_drop]) (le_refl _)]
  rfl

theorem tokenizeChars_cons_none {tbl : List (List Char × List Char)}
    {c : Char} {rest : List Char} (h : findMatch tbl (c :: rest) = none) :
    tokenizeChars tbl (c :: rest) = [c] :: tokenizeChars tbl rest := by
  show tokenGo tbl (c :: rest).length (c :: rest) = _
  simp only [List.length_cons, tokenGo, h]
  rfl

theorem findMatch_swap :
    ∀ (fwd : List (List Char × List Char)),
      (∀ p ∈ fwd, p.2.length = 1) →
      (fwd.map Prod.snd).Nodup →
      ∀ (k v : List Char), (k, v) ∈ fwd → ∀ (c : Char) (X : List Char), v = [c] →
        findMatch (fwd.map (fun p => (p.2, p.1))) (c :: X) = some (v, k) := by
  intro fwd
  induction fwd with
  | nil =>
    intro _ _ k v hm
    simp at hm
  | cons p fwd' ih =>
    intro hv hnd k v hm c X hvc
    obtain ⟨k₀, v₀⟩ := p
    have hv₀ : v₀.length = 1 := hv (k₀, v₀) (List.mem_cons_self _ _)
    obtain ⟨c₀, hc₀⟩ := List.length_eq_one.mp hv₀
    rcases List.mem_cons.mp hm with heq | hm'
    · have hk₀ : k₀ = k := (Prod.mk.injEq _ _ _ _ ▸ heq.symm).1
      have hv₀v : v₀ = v := (Prod.mk.injEq _ _ _ _ ▸ heq.symm).2
      subst hk₀
      subst hv₀v
      subst hvc
      simp only [List.map_cons, findMatch]
      rw [List.find?_cons_of_pos]
      simp [matchesAt]
    · have hvne : v₀ ≠ v := by
        intro hcontr
        subst hcontr
        have hmem : v₀ ∈ fwd'.map Prod.snd := List.mem_map.mpr ⟨(k, v₀), hm', rfl⟩
        exact (List.nodup_cons.mp (by simpa using hnd)).1 hmem
      have hpred : (!v₀.isEmpty && matchesAt v₀ (c :: X)) = false := by
        subst hc₀
        subst hvc
        simp only [matchesAt, Bool.and_eq_true]
        by_cases hce : c₀ = c
        · exact absurd (by rw [hce]) hvne
        · simp [hce]
      simp only [List.map_cons, findMatch]
      rw [List.find?_cons_of_neg _ (by simpa using hpred)]
      exact ih (fun q hq => hv q (List.mem_cons_of_mem _ hq))
        (List.nodup_cons.mp (by simpa using hnd)).2 k v hm' c X hvc

theorem translitChars_swap_step (fwd : List (List Char × List Char))
    (hv : ∀ p ∈ fwd, p.2.length = 1) (hnd : (fwd.map Prod.snd).Nodup)
    (k v : List Char) (hm : (k, v) ∈ fwd) (X : List Char) :
    translitChars (fwd.map (fun p => (p.2, p.1))) (v ++ X) =
      k ++ translitChars (fwd.map (fun p => (p.2, p.1))) X := by
  obtain ⟨c, hc⟩ := List.length_eq_one.mp (hv (k, v) hm)
  have hfm := findMatch_swap fwd hv hnd k v hm c X hc
  subst hc
  rw [List.singleton_append, translitChars_cons_some hfm]
  simp

theorem roundtrip_chars (fwd : List (List Char × List Char))
    (hv : ∀ p ∈ fwd, p.2.length = 1) (hnd : (fwd.map Prod.snd).Nodup) :
    ∀ (n : Nat) (cs : List Char), cs.length ≤ n →
      (∀ t ∈ tokenizeChars fwd cs, ∃ p ∈ fwd, p.1 = t) →
      translitChars (fwd.map (fun p => (p.2, p.1))) (translitChars fwd cs) = cs := by
  intro n
  induction n with
  | zero =>
    intro cs h₁ _
    have : cs = [] := List.eq_nil_of_length_eq_zero (Nat.le_zero.mp h₁)
    subst this
    rfl
  | succ m ih =>
    intro cs h₁ htok
    cases cs with
    | nil => rfl
    | cons c rest =>
      cases hfm : findMatch fwd (c :: rest) with
      | none =>
        exfalso
        rw [tokenizeChars_cons_none hfm] at htok
        obtain ⟨p, hp, hp1⟩ := htok [c] (List.mem_cons_self _ _)
        have hp' : ([c], p.2) ∈ fwd := by
          rw [← hp1]
          exact hp
        exact findMatch_ne_none hp' hfm
      | some kv =>
        obtain ⟨k, v⟩ := kv
        have hmem := findMatch_mem hfm
        have hspec := findMatch_spec hfm
        rw [translitChars_cons_some hfm,
          translitChars_swap_step fwd hv hnd k v hmem]
        have hdroplen : (rest.drop (k.length - 1)).length ≤ m := by
          have : rest.length ≤ m := by
            simpa using h₁
          simp only [List.length_drop]
          omega
        rw [tokenizeChars_cons_some hfm] at htok
        rw [ih (rest.drop (k.length - 1)) hdroplen
          (fun t ht => htok t (List.mem_cons_of_mem _ ht))]
        have hfull := matchesAt_append_drop k (c :: rest) hspec.2
        obtain ⟨a, k', rfl⟩ : ∃ a k', k = a :: k' := by
          cases k with
          | nil => exact absurd rfl hspec.1
          | cons a k' => exact ⟨a, k', rfl⟩
        simpa using hfull

/-- C5: transliterating a string from IAST to SLP1 and back with the same
fixed mapping tables yields the original string, for every string all of
whose clusters are representable in both schemes (each cluster of the
greedy decomposition is a key of the table). -/
theorem transliterate_roundtrip (s : String)
    (h : ∀ t ∈ tokenizeChars (charTable iastToSlp1Table) s.data,
         ∃ p ∈ charTable iastToSlp1Table, p.1 = t) :
    transliterate slp1ToIastTable (transliterate iastToSlp1Table s) = s := by
  have htab : charTable slp1ToIastTable =
      (charTable iastToSlp1Table).map (fun p => (p.2, p.1)) := by
    simp only [charTable, slp1ToIastTable, List.map_map]
    rfl
  have hv : ∀ p ∈ charTable iastToSlp1Table, p.2.length = 1 := by decide
  have hnd : ((charTable iastToSlp1Table).map Prod.snd).Nodup := by decide
  have hmain := roundtrip_chars (charTable iastToSlp1Table) hv hnd
    s.data.length s.data (le_refl _) h
  show String.mk (translitChars (charTable slp1ToIastTable)
    (translitChars (charTable iastToSlp1Table) s.data)) = s
  rw [htab, hmain]

/-- Witness for C5 at the concrete input `"gacchati"`. -/
theorem transliterate_roundtrip_witness :
    transliterate slp1ToIastTable (transliterate iastToSlp1Table "gacchati") = "gacchati" :=
  transliterate_roundtrip "gacchati" (by decide)

/-- C6: the transliterator is the identity on unmapped input — a string none
of whose characters can begin any cluster of the mapping table is passed
through unchanged, with no error involved (the function is total). -/
theorem transliterate_unmapped (tbl : List (String × String)) (s : String)
    (h : ∀ c ∈ s.data, ∀ p ∈ charTable tbl, p.1.head? ≠ some c) :
    transliterate tbl s = s := by
  have main : ∀ (f : Nat) (cs : List Char),
      (∀ c ∈ cs, ∀ p ∈ charTable tbl, p.1.head? ≠ some c) →
      translitGo (charTable tbl) f cs = cs := by
    intro f
    induction f with
    | zero =>
      intro cs _
      cases cs <;> rfl
    | succ m ih =>
      intro cs h'
      cases cs with
      | nil => rfl
      | cons c rest =>
        have hnone : findMatch (charTable tbl) (c :: rest) = none := by
          apply List.find?_eq_none.mpr
          intro p hp
          cases hk : p.1 with
          | nil => simp [hk]
          | cons a t =>
            have hne := h' c (List.mem_cons_self _ _) p hp
            rw [hk] at hne
            simp only [List.head?_cons, ne_eq, Option.some.injEq] at hne
            simp [hk, matchesAt, hne]
        simp only [translitGo, hnone]
        rw [ih rest (fun c' hc' => h' c' (List.mem_cons_of_mem _ hc'))]
  show String.mk (translitGo (charTable tbl) s.data.length s.data) = s
  rw [main s.data.length s.data h]

/-- Witness for C6 at a concrete digits-and-space input, which no IAST
cluster can begin. -/
theorem transliterate_unmapped_witness :
    transliterate iastToSlp1Table "1204 52" = "1204 52" :=
  transliterate_unmapped iastToSlp1Table "1204 52" (by decide)

/-! ## Lemmas about root extraction -/

theorem inner_foldl_data (grp : List TokenMapping) :
    ∀ s : String,
      (grp.foldl
        (fun s group =>
          match group.root with
          | some r => s ++ " " ++ r
          | none => s) s).data
      = s.data ++ ((grp.filterMap (fun g => g.root)).map (fun r => ' ' :: r.data)).flatten := by
  induction grp with
  | nil => intro s; simp
  | cons g grp' ih =>
    intro s
    have hsp : (" " : String).data = [' '] := rfl
    cases hr : g.root with
    | some r =>
      simp only [List.foldl_cons]
      rw [show (match g.root with
        | some r => s ++ " " ++ r
        | none => s) = s ++ " " ++ r by rw [hr]]
      rw [ih (s ++ " " ++ r)]
      simp [List.filterMap_cons, hr, String.data_append, hsp, List.append_assoc]
    | none =>
      simp only [List.foldl_cons]
      rw [show (match g.root with
        | some r => s ++ " " ++ r
        | none => s) = s by rw [hr]]
      rw [ih s]
      simp [List.filterMap_cons, hr]

theorem rootString_data (dec : List (List TokenMapping)) :
    (rootString dec).data = ((extractRoots dec).map (fun r => ' ' :: r.data)).flatten := by
  suffices h : ∀ (dec : List (List TokenMapping)) (s : String),
      (dec.foldl
        (fun s decomp =>
          decomp.foldl
            (fun s group =>
              match group.root with
              | some r => s ++ " " ++ r
              | none => s) s) s).data
      = s.data ++ ((extractRoots dec).map (fun r => ' ' :: r.data)).flatten by
    simpa [rootString] using h dec ""
  intro dec'
  induction dec' with
  | nil => intro s; simp [extractRoots]
  | cons grp dec'' ih =>
    intro s
    simp only [List.foldl_cons]
    rw [ih, inner_foldl_data grp s]
    simp [extractRoots, List.map_append, List.append_assoc]

theorem extractRoots_length (dec : List (List TokenMapping)) :
    (extractRoots dec).length = countRoots dec := by
  induction dec with
  | nil => rfl
  | cons grp dec' ih =>
    have hgrp : (grp.filterMap (fun g => g.root)).length
        = (grp.filter (fun g => g.root.isSome)).length := by
      induction grp with
      | nil => rfl
      | cons g grp'' ihg =>
        cases hr : g.root <;>
          simp [List.filterMap_cons, List.filter_cons, hr, ihg]
    simp only [extractRoots, countRoots, List.map_cons, List.flatten_cons,
      List.length_append, List.sum_cons] at ih ⊢
    omega

/-- C3: for every decomposition, the extracted root string is, character for
character, the concatenation of one single space followed by the root for
each root-bearing token-mapping, taken in outer-group-then-inner-token
order (`extractRoots`), and the number of such space-prefixed tokens equals
the number of root-bearing token-mappings; token-mappings without a `root`
key are skipped (the extraction is total — no error is possible). -/
theorem rootString_shape (dec : List (List TokenMapping)) :
    (rootString dec).data = ((extractRoots dec).map (fun r => ' ' :: r.data)).flatten ∧
    (extractRoots dec).length = countRoots dec :=
  ⟨rootString_data dec, extractRoots_length dec⟩

/-! ## Lemmas about the main loop -/

theorem procOne_err_frozen {st : LoopState} (doc : Doc) (h : st.err.isSome = true) :
    procOne st doc = st := by
  obtain ⟨e, he⟩ := Option.isSome_iff_exists.mp h
  simp [procOne, he]

theorem procOne_nonsentence {st : LoopState} {doc : Doc} {i : String}
    (hid : doc._id = some i) (hpre : startswith i "sentence_" = false) :
    procOne st doc = st := by
  cases he : st.err with
  | some e => simp [procOne, he]
  | none => simp [procOne, he, hid, hpre]

theorem foldl_filter_eq :
    ∀ (docs : List Doc) (st : LoopState), (∀ d ∈ docs, d._id.isSome = true) →
      docs.foldl procOne st = (iter_sentences docs).foldl procOne st := by
  intro docs
  induction docs with
  | nil => intro st _; rfl
  | cons d ds ih =>
    intro st hids
    obtain ⟨i, hi⟩ :=
      Option.isSome_iff_exists.mp (hids d (List.mem_cons_self _ _))
    by_cases hs : isSentenceDoc d = true
    · simp only [iter_sentences, List.filter_cons, hs, if_true, List.foldl_cons]
      exact ih (procOne st d) (fun x hx => hids x (List.mem_cons_of_mem _ hx))
    · have hs' : isSentenceDoc d = false := eq_false_of_ne_true hs
      have hpre : startswith i "sentence_" = false := by
        unfold isSentenceDoc at hs'
        rw [hi] at hs'
        exact hs'
      simp only [iter_sentences, List.filter_cons, hs', if_false, List.foldl_cons,
        Bool.false_eq_true]
      rw [procOne_nonsentence hi hpre]
      exact ih st (fun x hx => hids x (List.mem_cons_of_mem _ hx))

/-- C1: a sentence-prefixed document lacking `dcsAnalysisDecomposition` still
produces an output line — the transliteration of the accumulator value
carried over (stale) from a previous iteration, not of a freshly reset empty
string — and no extraction occurs for that document: the accumulator is left
exactly as it was. -/
theorem stale_accumulator_line (out sv : String) (doc : Doc) (i : String)
    (hid : doc._id = some i) (hpre : startswith i "sentence_" = true)
    (hdec : doc.dcsAnalysisDecomposition = none) :
    procOne ⟨out, some sv, none⟩ doc =
      ⟨out ++ transliterate iastToSlp1Table sv ++ "\n", some sv, none⟩ := by
  simp [procOne, hid, hpre, hdec]

/-- Witness for C1: a no-decomposition sentence document emits the stale
`" tad"` of the previous document as its whole line. -/
theorem stale_accumulator_line_witness :
    procOne ⟨"", some " tad", none⟩ noDecompDoc = ⟨" tad\n", some " tad", none⟩ :=
  stale_accumulator_line "" " tad" noDecompDoc "sentence_2" rfl (by decide) rfl

/-- C2 counterexample: on the single-document input of end-to-end scenario 1
the program does not write the line `"1, rāmaḥ gacchati, gam\n"` the claim
states. -/
theorem scenario1_not_spec_line :
    (runPipeline [scenario1Doc]).out ≠ "1, rāmaḥ gacchati, gam\n" := by decide

/-- C2 amended: on the single-document input of end-to-end scenario 1 the
program writes exactly the line `"1, rāmaḥ gacchati,  gam\n"` — two spaces
before `gam`, because the extractor prefixes every root with a single space
and the writer has already ended the text field with `", "`. -/
theorem scenario1_line :
    runPipeline [scenario1Doc] =
      ⟨"1, rāmaḥ gacchati,  gam\n", some " gam", none⟩ := by decide

/-- C4: a document whose identifier does not start with `"sentence_"` never
contributes to the output — processing it leaves the state (and hence the
output file) unchanged — and, whenever every document has an `_id`, the whole
run equals the run over exactly the `iter_sentences` filter, the documents
whose identifier begins with `"sentence_"`. -/
theorem nonsentence_never_output :
    (∀ (st : LoopState) (doc : Doc) (i : String), doc._id = some i →
        startswith i "sentence_" = false → procOne st doc = st) ∧
    (∀ docs : List Doc, (∀ d ∈ docs, d._id.isSome = true) →
        runPipeline docs = (iter_sentences docs).foldl procOne initState) :=
  ⟨fun _ _ _ hid hpre => procOne_nonsentence hid hpre,
   fun docs h => foldl_filter_eq docs initState h⟩

/-- Witness for C4 on the concrete documents `metaDoc` and `scenario1Doc`. -/
theorem nonsentence_never_output_witness :
    procOne initState metaDoc = initState ∧
    runPipeline [metaDoc, scenario1Doc] =
      (iter_sentences [metaDoc, scenario1Doc]).foldl procOne initState :=
  ⟨nonsentence_never_output.1 initState metaDoc "meta_1" rfl (by decide),
   nonsentence_never_output.2 [metaDoc, scenario1Doc] (by decide)⟩

/-- C9: on an input whose `docs` array is empty the program writes nothing —
the final state is the initial one and the output file is empty. -/
theorem empty_input_empty_output :
    runPipeline [] = initState ∧ (runPipeline []).out = "" :=
  ⟨rfl, rfl⟩

theorem procOne_missing_id {st : LoopState} {doc : Doc}
    (he : st.err = none) (hid : doc._id = none) :
    procOne st doc = ⟨st.out, st.s, some (.keyError "_id")⟩ := by
  simp [procOne, he, hid]

theorem foldl_frozen :
    ∀ (docs : List Doc) (st : LoopState), st.err.isSome = true →
      docs.foldl procOne st = st := by
  intro docs
  induction docs with
  | nil => intro st _; rfl
  | cons d ds ih =>
    intro st h
    simp only [List.foldl_cons]
    rw [procOne_err_frozen d h]
    exact ih st h

theorem run_err_of_missing_id :
    ∀ (docs : List Doc) (st : LoopState), (∃ d ∈ docs, d._id = none) →
      ((docs.foldl procOne st).err).isSome = true := by
  intro docs
  induction docs with
  | nil =>
    intro st h
    obtain ⟨d, hd, _⟩ := h
    simp at hd
  | cons d ds ih =>
    intro st h
    obtain ⟨d', hd', hid'⟩ := h
    rcases List.mem_cons.mp hd' with rfl | hmem
    · cases he : st.err with
      | some e =>
        simp only [List.foldl_cons]
        rw [procOne_err_frozen d' (by simp [he]), foldl_frozen ds st (by simp [he])]
        simp [he]
      | none =>
        simp only [List.foldl_cons]
        rw [procOne_missing_id he hid', foldl_frozen ds _ (by simp)]
        rfl
    · simp only [List.foldl_cons]
      exact ih (procOne st d) ⟨d', hmem, hid'⟩

/-- C8: a document lacking the `_id` field makes processing fail with a
KeyError-equivalent that is propagated, not caught: the access raises
`KeyError "_id"` without writing anything, an already-raised error freezes
every later document (no per-document recovery), and any run over a
collection containing such a document ends aborted with a pending error. -/
theorem missing_id_aborts :
    (∀ (st : LoopState) (doc : Doc), st.err = none → doc._id = none →
        procOne st doc = ⟨st.out, st.s, some (.keyError "_id")⟩) ∧
    (∀ (st : LoopState) (doc : Doc), st.err.isSome = true → procOne st doc = st) ∧
    (∀ docs : List Doc, (∃ d ∈ docs, d._id = none) →
        ((runPipeline docs).err).isSome = true) :=
  ⟨fun _ _ he hid => procOne_missing_id he hid,
   fun _ doc h => procOne_err_frozen doc h,
   fun docs h => run_err_of_missing_id docs initState h⟩

/-- Witness for C8 on concrete runs containing `noIdDoc`. -/
theorem missing_id_aborts_witness :
    procOne initState noIdDoc = ⟨"", none, some (.keyError "_id")⟩ ∧
    ((runPipeline [scenario1Doc, noIdDoc]).err).isSome = true :=
  ⟨missing_id_aborts.1 initState noIdDoc rfl rfl,
   missing_id_aborts.2.2 [scenario1Doc, noIdDoc] ⟨noIdDoc, by decide, rfl⟩⟩

theorem sentenceDoc_id {d : Doc} (h : isSentenceDoc d = true) :
    ∃ i, d._id = some i ∧ startswith i "sentence_" = true := by
  unfold isSentenceDoc at h
  cases hid : d._id with
  | none => rw [hid] at h; simp at h
  | some i => rw [hid] at h; exact ⟨i, rfl, h⟩

theorem procOne_preserves_accAssigned (st : LoopState) (doc : Doc)
    (h : accAssigned st) : accAssigned (procOne st doc) := by
  obtain ⟨h1, h2⟩ := h
  cases he : st.err with
  | some e =>
    rw [procOne_err_frozen doc (by simp [he])]
    exact ⟨h1, h2⟩
  | none =>
    have hs : st.s.isSome = true := h2 he
    obtain ⟨sv, hsv⟩ := Option.isSome_iff_exists.mp hs
    cases hid : doc._id with
    | none =>
      rw [procOne_missing_id he hid]
      simp [accAssigned]
    | some i =>
      by_cases hpre : startswith i "sentence_" = true
      · cases hdec : doc.dcsAnalysisDecomposition with
        | some dec =>
          cases hn : doc.dcsId with
          | none =>
            simp only [procOne, he, hid, hpre, if_true, hdec, hn]
            simp [accAssigned]
          | some n =>
            cases ht : doc.text with
            | none =>
              simp only [procOne, he, hid, hpre, if_true, hdec, hn, ht]
              simp [accAssigned]
            | some t =>
              simp only [procOne, he, hid, hpre, if_true, hdec, hn, ht]
              simp [accAssigned]
        | none =>
          simp only [procOne, he, hid, hpre, if_true, hdec, hsv]
          simp [accAssigned]
      · rw [procOne_nonsentence hid (eq_false_of_ne_true hpre)]
        exact ⟨h1, h2⟩

theorem foldl_preserves_accAssigned :
    ∀ (docs : List Doc) (st : LoopState), accAssigned st →
      accAssigned (docs.foldl procOne st) := by
  intro docs
  induction docs with
  | nil => exact fun _ h => h
  | cons d ds ih =>
    intro st h
    exact ih _ (procOne_preserves_accAssigned st d h)

theorem no_nameError_of_firstSentOk :
    ∀ (docs : List Doc) (st : LoopState), st.err = none → st.s = none →
      firstSentenceHasDecomp docs = true →
      (docs.foldl procOne st).err ≠ some (.nameError "s") := by
  intro docs
  induction docs with
  | nil =>
    intro st he _ _
    simp [he]
  | cons d ds ih =>
    intro st he hs hfirst
    by_cases hsd : isSentenceDoc d = true
    · have hdec : d.dcsAnalysisDecomposition.isSome = true := by
        unfold firstSentenceHasDecomp at hfirst
        simpa [hsd] using hfirst
      obtain ⟨dec, hdec'⟩ := Option.isSome_iff_exists.mp hdec
      obtain ⟨i, hi, hpre⟩ := sentenceDoc_id hsd
      have hQ : accAssigned (procOne st d) := by
        simp only [procOne, he, hi, hpre, if_true, hdec']
        cases hn : d.dcsId with
        | none => simp [accAssigned]
        | some n =>
          cases ht : d.text with
          | none => simp [accAssigned]
          | some t => simp [accAssigned]
      have hrest := foldl_preserves_accAssigned ds (procOne st d) hQ
      simpa [List.foldl_cons] using hrest.1
    · cases hid : d._id with
      | none =>
        have hQ : accAssigned (procOne st d) := by
          rw [procOne_missing_id he hid]
          simp [accAssigned]
        have hrest := foldl_preserves_accAssigned ds (procOne st d) hQ
        simpa [List.foldl_cons] using hrest.1
      | some i =>
        have hpre : startswith i "sentence_" = false := by
          unfold isSentenceDoc at hsd
          rw [hid] at hsd
          simpa using hsd
        have hfirst' : firstSentenceHasDecomp ds = true := by
          unfold firstSentenceHasDecomp at hfirst
          simpa [eq_false_of_ne_true hsd] using hfirst
        simp only [List.foldl_cons]
        rw [procOne_nonsentence hid hpre]
        exact ih st he hs hfirst'

theorem foldl_nonsentence_skip :
    ∀ (pre : List Doc) (st : LoopState),
      (∀ p ∈ pre, isSentenceDoc p = false ∧ p._id.isSome = true) →
      pre.foldl procOne st = st := by
  intro pre
  induction pre with
  | nil => intro st _; rfl
  | cons p pre' ih =>
    intro st h
    obtain ⟨hsent, hid⟩ := h p (List.mem_cons_self _ _)
    obtain ⟨i, hi⟩ := Option.isSome_iff_exists.mp hid
    have hpre : startswith i "sentence_" = false := by
      unfold isSentenceDoc at hsent
      rw [hi] at hsent
      exact hsent
    simp only [List.foldl_cons]
    rw [procOne_nonsentence hi hpre]
    exact ih st (fun x hx => h x (List.mem_cons_of_mem _ hx))

/-- C10: if the first sentence-prefixed document of the input lacks the
`dcsAnalysisDecomposition` field, the transliteration step reads the never-
assigned accumulator `s`, so the run fails with a NameError-equivalent
having written nothing at all (in particular no line for that document);
and whenever the first sentence document does have a decomposition field,
that failure is unreachable: no run ends with the NameError pending. -/
theorem uninitialized_accumulator :
    (∀ (pre post : List Doc) (d : Doc),
        (∀ p ∈ pre, isSentenceDoc p = false ∧ p._id.isSome = true) →
        isSentenceDoc d = true → d.dcsAnalysisDecomposition = none →
        runPipeline (pre ++ d :: post) = ⟨"", none, some (.nameError "s")⟩) ∧
    (∀ docs : List Doc, firstSentenceHasDecomp docs = true →
        (runPipeline docs).err ≠ some (.nameError "s")) := by
  constructor
  · intro pre post d hpre hsd hdec
    obtain ⟨i, hi, hp⟩ := sentenceDoc_id hsd
    show (pre ++ d :: post).foldl procOne initState = _
    rw [List.foldl_append, foldl_nonsentence_skip pre initState hpre]
    simp only [List.foldl_cons]
    have hstep : procOne initState d = ⟨"", none, some (.nameError "s")⟩ := by
      simp [procOne, initState, hi, hp, hdec]
    rw [hstep]
    exact foldl_frozen post _ (by simp)
  · intro docs h
    exact no_nameError_of_firstSentOk docs initState rfl rfl h

/-- Witness for C10 on concrete runs: a run whose first sentence document
lacks the decomposition dies with the NameError having written nothing, and
a run whose first sentence document has one never raises it. -/
theorem uninitialized_accumulator_witness :
    runPipeline [metaDoc, noDecompDoc] = ⟨"", none, some (.nameError "s")⟩ ∧
    (runPipeline [scenario1Doc, noDecompDoc]).err ≠ some (.nameError "s") :=
  ⟨uninitialized_accumulator.1 [metaDoc] [] noDecompDoc (by decide) (by decide) rfl,
   uninitialized_accumulator.2 [scenario1Doc, noDecompDoc] (by decide)⟩

/-! ## Lemmas about the line-count invariant -/

theorem mem_translitGo {tbl : List (List Char × List Char)} :
    ∀ (f : Nat) (cs : List Char) (c : Char), c ∈ translitGo tbl f cs →
      c ∈ cs ∨ ∃ p ∈ tbl, c ∈ p.2 := by
  intro f
  induction f with
  | zero =>
    intro cs c h
    cases cs with
    | nil => simp [translitGo] at h
    | cons a rest => exact Or.inl (by simpa [translitGo] using h)
  | succ m ih =>
    intro cs c h
    cases cs with
    | nil => simp [translitGo] at h
    | cons a rest =>
      cases hfm : findMatch tbl (a :: rest) with
      | some kv =>
        obtain ⟨k, v⟩ := kv
        simp only [translitGo, hfm] at h
        rcases List.mem_append.mp h with hv | hrec
        · exact Or.inr ⟨(k, v), findMatch_mem hfm, hv⟩
        · rcases ih _ c hrec with hin | hval
          · exact Or.inl (List.mem_cons_of_mem _ (List.mem_of_mem_drop hin))
          · exact Or.inr hval
      | none =>
        simp only [translitGo, hfm] at h
        rcases List.mem_cons.mp h with rfl | hrec
        · exact Or.inl (List.mem_cons_self _ _)
        · rcases ih rest c hrec with hin | hval
          · exact Or.inl (List.mem_cons_of_mem _ hin)
          · exact Or.inr hval

theorem translit_no_nl {tbl : List (String × String)} {s : String}
    (hval : ∀ p ∈ charTable tbl, '\n' ∉ p.2)
    (hs : '\n' ∉ s.data) : '\n' ∉ (transliterate tbl s).data := by
  intro hmem
  have hmem' : '\n' ∈ translitGo (charTable tbl) s.data.length s.data := hmem
  rcases mem_translitGo s.data.length s.data '\n' hmem' with h | ⟨p, hp, hc⟩
  · exact hs h
  · exact hval p hp hc

theorem rootString_no_nl {dec : List (List TokenMapping)}
    (h : ∀ grp ∈ dec, ∀ g ∈ grp, ∀ r, g.root = some r → '\n' ∉ r.data) :
    '\n' ∉ (rootString dec).data := by
  rw [rootString_data]
  intro hmem
  rw [List.mem_flatten] at hmem
  obtain ⟨l, hl, hcl⟩ := hmem
  rw [List.mem_map] at hl
  obtain ⟨r, hr, rfl⟩ := hl
  rcases List.mem_cons.mp hcl with heq | hin
  · exact absurd heq (by decide)
  · unfold extractRoots at hr
    rw [List.mem_flatten] at hr
    obtain ⟨l', hl', hrl'⟩ := hr
    rw [List.mem_map] at hl'
    obtain ⟨grp, hgrp, rfl⟩ := hl'
    rw [List.mem_filterMap] at hrl'
    obtain ⟨g, hg, hgr⟩ := hrl'
    exact h grp hgrp g hg r hgr hin

theorem countNl_append (a b : String) :
    countNl (a ++ b) = countNl a + countNl b := by
  simp [countNl, String.data_append, List.count_append]

theorem countNl_no_nl {s : String} (h : '\n' ∉ s.data) : countNl s = 0 :=
  List.count_eq_zero.mpr h

theorem noNlStr_spec {s : String} (h : noNlStr s = true) : '\n' ∉ s.data := by
  simpa [noNlStr] using h

theorem procOne_countNl (st : LoopState) (d : Doc)
    (hd : noNlDoc d = true) (hst : accNoNl st) :
    countNl (procOne st d).out ≤ countNl st.out + 1 ∧ accNoNl (procOne st d) := by
  have hvalNl : ∀ p ∈ charTable iastToSlp1Table, '\n' ∉ p.2 := by decide
  have hnlOne : countNl "\n" = 1 := rfl
  have hcomma : countNl ", " = 0 := rfl
  simp only [noNlDoc, Bool.and_eq_true] at hd
  obtain ⟨⟨hdId, hdText⟩, hdDec⟩ := hd
  cases he : st.err with
  | some e =>
    rw [procOne_err_frozen d (by simp [he])]
    exact ⟨Nat.le_succ _, hst⟩
  | none =>
    cases hid : d._id with
    | none =>
      rw [procOne_missing_id he hid]
      exact ⟨Nat.le_succ _, fun sv hsv => hst sv hsv⟩
    | some i =>
      by_cases hpre : startswith i "sentence_" = true
      · cases hdec : d.dcsAnalysisDecomposition with
        | some dec =>
          have hroots : '\n' ∉ (rootString dec).data := by
            apply rootString_no_nl
            intro grp hgrp g hg r hgr
            rw [hdec] at hdDec
            have hall := List.all_eq_true.mp hdDec grp hgrp
            have hall2 := List.all_eq_true.mp hall g hg
            rw [hgr] at hall2
            exact noNlStr_spec hall2
          cases hn : d.dcsId with
          | none =>
            simp only [procOne, he, hid, hpre, if_true, hdec, hn]
            exact ⟨Nat.le_succ _, fun sv hsv => hst sv hsv⟩
          | some n =>
            have hnNl : '\n' ∉ n.data := by
              rw [hn] at hdId
              exact noNlStr_spec hdId
            cases ht : d.text with
            | none =>
              simp only [procOne, he, hid, hpre, if_true, hdec, hn, ht]
              constructor
              · simp only [countNl_append, countNl_no_nl hnNl, hcomma]
                omega
              · exact fun sv hsv => hst sv hsv
            | some t =>
              have htNl : '\n' ∉ t.data := by
                rw [ht] at hdText
                exact noNlStr_spec hdText
              simp only [procOne, he, hid, hpre, if_true, hdec, hn, ht]
              constructor
              · simp only [countNl_append, countNl_no_nl hnNl, countNl_no_nl htNl,
                  countNl_no_nl (translit_no_nl hvalNl hroots), hcomma, hnlOne]
                omega
              · intro sv hsv
                simp only [Option.some.injEq] at hsv
                rw [← hsv]
                exact hroots
        | none =>
          cases hs : st.s with
          | none =>
            simp only [procOne, he, hid, hpre, if_true, hdec, hs]
            exact ⟨Nat.le_succ _, fun sv hsv => by simp at hsv⟩
          | some sv =>
            have hsvNl : '\n' ∉ sv.data := hst sv hs
            simp only [procOne, he, hid, hpre, if_true, hdec, hs]
            constructor
            · simp only [countNl_append, countNl_no_nl (translit_no_nl hvalNl hsvNl), hnlOne]
              omega
            · intro sv' hsv'
              simp only [Option.some.injEq] at hsv'
              rw [← hsv']
              exact hsvNl
      · rw [procOne_nonsentence hid (eq_false_of_ne_true hpre)]
        exact ⟨Nat.le_succ _, hst⟩

theorem run_countNl :
    ∀ (docs : List Doc) (st : LoopState), (∀ d ∈ docs, noNlDoc d = true) →
      accNoNl st →
      countNl (docs.foldl procOne st).out ≤ countNl st.out + docs.length := by
  intro docs
  induction docs with
  | nil => intro st _ _; simp
  | cons d ds ih =>
    intro st h hst
    obtain ⟨hc, hinv⟩ := procOne_countNl st d (h d (List.mem_cons_self _ _)) hst
    have hrest := ih (procOne st d) (fun x hx => h x (List.mem_cons_of_mem _ hx)) hinv
    simp only [List.foldl_cons, List.length_cons]
    omega

/-- C7 counterexample: a single document whose root value embeds a newline
character makes the program write two newline characters, so the output line
count exceeds the input document count and the claim fails as stated. -/
theorem lineCount_exceeds_docs :
    ¬ countNl (runPipeline [newlineRootDoc]).out ≤ ([newlineRootDoc] : List Doc).length := by
  decide

/-- C7 amended: for every input document list none of whose writable field
values (`str(dcsId)`, `text`, roots) embeds a newline character, the number
of lines written to the output file is at most the number of documents in
the input list. -/
theorem lineCount_le_docs (docs : List Doc) (h : ∀ d ∈ docs, noNlDoc d = true) :
    countNl (runPipeline docs).out ≤ docs.length := by
  have hrun := run_countNl docs initState h (fun sv hsv => by simp [initState] at hsv)
  have h0 : countNl initState.out = 0 := rfl
  show countNl (docs.foldl procOne initState).out ≤ docs.length
  omega

/-- Witness for C7 (amended) on the concrete scenario-1 run. -/
theorem lineCount_le_docs_witness :
    countNl (runPipeline [scenario1Doc]).out ≤ ([scenario1Doc] : List Doc).length :=
  lineCount_le_docs [scenario1Doc] (by decide)

end DcsWrapper
